import Mathlib

/-!
# Verification of `pagerank.py`

A shallow embedding of the PageRank program (`transition_model`,
`sample_pagerank`, `iterate_pagerank`) over exact rational arithmetic.
Python dictionaries keyed by the corpus pages are modelled as association
lists in corpus insertion order; rank tables and probability tables carry
rational values.
-/

namespace PageRank

abbrev Page := String

/-- The corpus: a mapping from page to its list of outbound links,
in insertion order, as produced by `crawl`. -/
abbrev Corpus := List (Page × List Page)

/-- The keys of the corpus, in insertion order. -/
def keys (c : Corpus) : List Page := c.map Prod.fst

/-- `corpus[page]`: the outbound links of `page` (first matching entry). -/
def linksOf : Corpus → Page → List Page
  | [], _ => []
  | e :: rest, p => if e.1 = p then e.2 else linksOf rest p

/-- Value lookup in a rank/probability table (first matching entry;
`0` when absent — the Python code never looks up an absent key). -/
def rankOf : List (Page × ℚ) → Page → ℚ
  | [], _ => 0
  | e :: rest, p => if e.1 = p then e.2 else rankOf rest p

/-- The Graph invariants of the spec (§3): link targets are keys of the
mapping, no self-links, at least one entry; additionally the facts forced
by the Python representation: dictionary keys are distinct, and each link
set (a Python `set`) has no duplicates. -/
structure ValidCorpus (c : Corpus) : Prop where
  nodupKeys : (keys c).Nodup
  nodupLinks : ∀ e ∈ c, e.2.Nodup
  closed : ∀ e ∈ c, ∀ q ∈ e.2, q ∈ keys c
  noSelf : ∀ e ∈ c, e.1 ∉ e.2
  nonempty : c ≠ []

/-- `probability[page_name] += x` on a table: update every entry whose key
is `p` (a Python dict holds each key once, so on valid tables this is the
single entry). -/
def bump (l : List (Page × ℚ)) (p : Page) (x : ℚ) : List (Page × ℚ) :=
  l.map (fun e => if e.1 = p then (e.1, e.2 + x) else e)

/-- `for page_name in corpus[page]: probability[page_name] += prob_link`. -/
def bumpAll (l : List (Page × ℚ)) (ps : List Page) (x : ℚ) : List (Page × ℚ) :=
  ps.foldl (fun acc p => bump acc p x) l

/-- `transition_model(corpus, page, damping_factor)`: builds the zeroed
table over all corpus pages, then either the sink branch (`+= 1/len(corpus)`
for every page) or the linked branch (`+= damping/len(links)` on each link,
then `+= (1-damping)/len(probability)` on every page). -/
def transition_model (c : Corpus) (page : Page) (d : ℚ) : List (Page × ℚ) :=
  let probability : List (Page × ℚ) := c.map (fun e => (e.1, 0))
  if (linksOf c page).length = 0 then
    probability.map (fun e => (e.1, e.2 + 1 / (c.length : ℚ)))
  else
    let prob_link := d / ((linksOf c page).length : ℚ)
    let p1 := bumpAll probability (linksOf c page) prob_link
    let prob_random := (1 - d) / (p1.length : ℚ)
    p1.map (fun e => (e.1, e.2 + prob_random))

/-- `sum(table.values())`. -/
def totalProb (t : List (Page × ℚ)) : ℚ := (t.map Prod.snd).sum

theorem keys_bump (l : List (Page × ℚ)) (p : Page) (x : ℚ) :
    (bump l p x).map Prod.fst = l.map Prod.fst := by
  induction l with
  | nil => rfl
  | cons e rest ih =>
      simp only [bump, List.map_cons] at *
      by_cases h : e.1 = p <;> simp [h, ih]

theorem keys_bumpAll (l : List (Page × ℚ)) (ps : List Page) (x : ℚ) :
    (bumpAll l ps x).map Prod.fst = l.map Prod.fst := by
  induction ps generalizing l with
  | nil => rfl
  | cons q rest ih =>
      simp only [bumpAll, List.foldl_cons] at *
      rw [ih (bump l q x), keys_bump]

theorem length_bumpAll (l : List (Page × ℚ)) (ps : List Page) (x : ℚ) :
    (bumpAll l ps x).length = l.length := by
  have h := congrArg List.length (keys_bumpAll l ps x)
  simpa using h

theorem rankOf_bump (l : List (Page × ℚ)) (p q : Page) (x : ℚ)
    (hp : p ∈ l.map Prod.fst) :
    rankOf (bump l q x) p = rankOf l p + if p = q then x else 0 := by
  induction l with
  | nil => simp at hp
  | cons e rest ih =>
      simp only [List.map_cons, List.mem_cons] at hp
      by_cases he : e.1 = p
      · by_cases heq : e.1 = q
        · have hpq : p = q := he ▸ heq
          simp [bump, rankOf, he, heq, hpq]
        · have hpq : ¬ p = q := fun h => heq (he.trans h)
          simp [bump, rankOf, he, heq, hpq]
      · have hp' : p ∈ rest.map Prod.fst := by
          rcases hp with h | h
          · exact absurd h.symm he
          · exact h
        by_cases heq : e.1 = q
        · have hqp : ¬ q = p := heq ▸ he
          simpa [bump, rankOf, he, heq, hqp] using ih hp'
        · simpa [bump, rankOf, he, heq] using ih hp'

theorem rankOf_bumpAll (l : List (Page × ℚ)) (ps : List Page) (p : Page) (x : ℚ)
    (hp : p ∈ l.map Prod.fst) :
    rankOf (bumpAll l ps x) p = rankOf l p + (ps.count p : ℚ) * x := by
  induction ps generalizing l with
  | nil => simp [bumpAll]
  | cons q rest ih =>
      have hp' : p ∈ (bump l q x).map Prod.fst := by
        rw [keys_bump]; exact hp
      have step := ih (bump l q x) hp'
      simp only [bumpAll, List.foldl_cons] at *
      rw [step, rankOf_bump l p q x hp]
      by_cases hpq : p = q
      · subst hpq
        rw [List.count_cons_self]
        push_cast
        simp
        ring
      · rw [List.count_cons_of_ne hpq]
        simp [hpq]

/-- In a table with distinct keys, every entry's value is what lookup
at its key returns. -/
theorem rankOf_of_mem (l : List (Page × ℚ)) :
    (l.map Prod.fst).Nodup → ∀ e ∈ l, rankOf l e.1 = e.2 := by
  induction l with
  | nil => intro _ e he; simp at he
  | cons a rest ih =>
      intro hnd e he
      simp only [List.map_cons, List.nodup_cons] at hnd
      rcases List.mem_cons.mp he with he | he
      · subst he; simp [rankOf]
      · have hne : ¬ a.1 = e.1 := by
          intro h
          exact hnd.1 (h ▸ List.mem_map_of_mem Prod.fst he)
        simp only [rankOf, hne, if_false]
        exact ih hnd.2 e he

/-- In a corpus with distinct keys, `corpus[e.1] = e.2` for each entry. -/
theorem linksOf_of_mem (c : Corpus) :
    (keys c).Nodup → ∀ e ∈ c, linksOf c e.1 = e.2 := by
  induction c with
  | nil => intro _ e he; simp at he
  | cons a rest ih =>
      intro hnd e he
      simp only [keys, List.map_cons, List.nodup_cons] at hnd
      rcases List.mem_cons.mp he with he | he
      · subst he; simp [linksOf]
      · have hne : ¬ a.1 = e.1 := by
          intro h
          exact hnd.1 (h ▸ List.mem_map_of_mem Prod.fst he)
        simp only [linksOf, hne, if_false]
        exact ih hnd.2 e he

/-- Looking up a table built by mapping a key-dependent value over the
corpus gives that value. -/
theorem rankOf_mapValue (c : Corpus) (f : Page → ℚ) (p : Page)
    (hp : p ∈ keys c) :
    rankOf (c.map (fun e => (e.1, f e.1))) p = f p := by
  induction c with
  | nil => simp [keys] at hp
  | cons a rest ih =>
      by_cases h : a.1 = p
      · simp [rankOf, h]
      · have hp' : p ∈ keys rest := by
          simp only [keys, List.map_cons, List.mem_cons] at hp
          rcases hp with hp | hp
          · exact absurd hp.symm h
          · exact hp
        simpa [rankOf, h] using ih hp'

/-- Shifting every value of a table by a constant shifts each lookup. -/
theorem rankOf_shift (l : List (Page × ℚ)) (y : ℚ) (p : Page)
    (hp : p ∈ l.map Prod.fst) :
    rankOf (l.map (fun e => (e.1, e.2 + y))) p = rankOf l p + y := by
  induction l with
  | nil => simp at hp
  | cons a rest ih =>
      by_cases h : a.1 = p
      · simp [rankOf, h]
      · have hp' : p ∈ rest.map Prod.fst := by
          simp only [List.map_cons, List.mem_cons] at hp
          rcases hp with hp | hp
          · exact absurd hp.symm h
          · exact hp
        simpa [rankOf, h] using ih hp'

/-- Shifting every value preserves the key list. -/
theorem keys_shift (l : List (Page × ℚ)) (y : ℚ) :
    (l.map (fun e => (e.1, e.2 + y))).map Prod.fst = l.map Prod.fst := by
  rw [List.map_map]
  simp [Function.comp]

theorem keys_transition_model (c : Corpus) (page : Page) (d : ℚ) :
    (transition_model c page d).map Prod.fst = keys c := by
  unfold transition_model
  by_cases h : (linksOf c page).length = 0
  · simp only [h, if_true, eq_self_iff_true]
    rw [List.map_map, List.map_map]
    simp [keys, Function.comp]
  · simp only [h, if_false]
    rw [keys_shift, keys_bumpAll, List.map_map]
    simp [keys, Function.comp]

theorem keys_zeroTable (c : Corpus) :
    (c.map (fun e => (e.1, (0 : ℚ)))).map Prod.fst = keys c := by
  rw [List.map_map]
  simp [keys, Function.comp]

/-- Value computed by `transition_model` in the sink branch. -/
theorem tm_val_sink (c : Corpus) (page : Page) (d : ℚ) (p : Page)
    (hp : p ∈ keys c) (hs : linksOf c page = []) :
    rankOf (transition_model c page d) p = 1 / (c.length : ℚ) := by
  unfold transition_model
  simp only [hs, List.length_nil, if_true, eq_self_iff_true]
  rw [List.map_map]
  have : ((fun e => (e.1, e.2 + 1 / (c.length : ℚ))) ∘ (fun e => (e.1, (0 : ℚ))))
      = (fun e : Page × List Page => (e.1, (0 : ℚ) + 1 / (c.length : ℚ))) := rfl
  rw [this]
  rw [rankOf_mapValue c (fun _ => (0 : ℚ) + 1 / (c.length : ℚ)) p hp]
  ring

/-- Value computed by `transition_model` in the linked branch. -/
theorem tm_val_nonsink (c : Corpus) (page : Page) (d : ℚ) (p : Page)
    (hp : p ∈ keys c) (hnd : (linksOf c page).Nodup)
    (hs : linksOf c page ≠ []) :
    rankOf (transition_model c page d) p
      = (if p ∈ linksOf c page then d / ((linksOf c page).length : ℚ) else 0)
        + (1 - d) / (c.length : ℚ) := by
  unfold transition_model
  have hlen : (linksOf c page).length ≠ 0 := by
    simpa [List.length_eq_zero] using hs
  simp only [hlen, if_false]
  set z : List (Page × ℚ) := c.map (fun e => (e.1, (0 : ℚ))) with hz
  set x : ℚ := d / ((linksOf c page).length : ℚ) with hx
  have hkz : z.map Prod.fst = keys c := keys_zeroTable c
  have hpz : p ∈ z.map Prod.fst := by rw [hkz]; exact hp
  have hp1 : p ∈ (bumpAll z (linksOf c page) x).map Prod.fst := by
    rw [keys_bumpAll]; exact hpz
  have hlen1 : (bumpAll z (linksOf c page) x).length = c.length := by
    rw [length_bumpAll]; simp [hz]
  rw [rankOf_shift _ _ _ hp1, rankOf_bumpAll z _ p x hpz, hlen1]
  have hz0 : rankOf z p = 0 := by
    rw [hz]
    exact rankOf_mapValue c (fun _ => (0 : ℚ)) p hp
  rw [hz0]
  by_cases hmem : p ∈ linksOf c page
  · rw [List.count_eq_one_of_mem hnd hmem]
    simp [hmem]
  · rw [List.count_eq_zero_of_not_mem hmem]
    simp [hmem]

theorem totalProb_map_shift (l : List (Page × ℚ)) (y : ℚ) :
    totalProb (l.map (fun e => (e.1, e.2 + y))) = totalProb l + l.length * y := by
  induction l with
  | nil => simp [totalProb]
  | cons a rest ih =>
      simp only [totalProb, List.map_cons, List.sum_cons, List.length_cons] at *
      rw [ih]
      push_cast
      ring

theorem totalProb_bump (l : List (Page × ℚ)) (q : Page) (x : ℚ)
    (hnd : (l.map Prod.fst).Nodup) (hq : q ∈ l.map Prod.fst) :
    totalProb (bump l q x) = totalProb l + x := by
  induction l with
  | nil => simp at hq
  | cons a rest ih =>
      simp only [List.map_cons, List.nodup_cons] at hnd
      by_cases h : a.1 = q
      · have hqrest : q ∉ rest.map Prod.fst := h ▸ hnd.1
        have hrest : bump rest q x = rest := by
          unfold bump
          have h1 : List.map (fun e : Page × ℚ => if e.1 = q then (e.1, e.2 + x) else e) rest
              = List.map id rest := by
            apply List.map_congr_left
            intro e he
            have : ¬ e.1 = q := by
              intro hh
              exact hqrest (hh ▸ List.mem_map_of_mem Prod.fst he)
            simp [this]
          rw [h1, List.map_id]
        simp only [totalProb, bump, List.map_cons, h, if_true, List.sum_cons,
          eq_self_iff_true] at *
        rw [hrest]
        ring
      · have hq' : q ∈ rest.map Prod.fst := by
          simp only [List.map_cons, List.mem_cons] at hq
          rcases hq with hq | hq
          · exact absurd hq.symm h
          · exact hq
        have := ih hnd.2 hq'
        simp only [totalProb, bump, List.map_cons, h, if_false, List.sum_cons] at *
        rw [this]
        ring

theorem totalProb_bumpAll (l : List (Page × ℚ)) (ps : List Page) (x : ℚ)
    (hnd : (l.map Prod.fst).Nodup) (hps : ∀ p ∈ ps, p ∈ l.map Prod.fst) :
    totalProb (bumpAll l ps x) = totalProb l + ps.length * x := by
  induction ps generalizing l with
  | nil => simp [bumpAll]
  | cons q rest ih =>
      have hq : q ∈ l.map Prod.fst := hps q (List.mem_cons_self q rest)
      have hnd' : ((bump l q x).map Prod.fst).Nodup := by
        rw [keys_bump]; exact hnd
      have hps' : ∀ p ∈ rest, p ∈ (bump l q x).map Prod.fst := by
        intro p hp
        rw [keys_bump]
        exact hps p (List.mem_cons_of_mem q hp)
      have step := ih (bump l q x) hnd' hps'
      simp only [bumpAll, List.foldl_cons] at *
      rw [step, totalProb_bump l q x hnd hq, List.length_cons]
      push_cast
      ring

theorem totalProb_zeroTable (c : Corpus) :
    totalProb (c.map (fun e => (e.1, (0 : ℚ)))) = 0 := by
  induction c with
  | nil => simp [totalProb]
  | cons a rest ih => simpa [totalProb] using ih

theorem exists_entry_of_mem_keys (c : Corpus) (p : Page) (hp : p ∈ keys c) :
    ∃ e, e ∈ c ∧ e.1 = p := List.mem_map.mp hp

theorem length_pos_rat (c : Corpus) (hne : c ≠ []) : (0 : ℚ) < (c.length : ℚ) := by
  have : 0 < c.length := List.length_pos.mpr hne
  exact_mod_cast this

theorem linksOf_entry (c : Corpus) (hnd : (keys c).Nodup) (page : Page)
    (hpage : page ∈ keys c) :
    ∃ e, e ∈ c ∧ e.1 = page ∧ linksOf c page = e.2 := by
  obtain ⟨e, he, he1⟩ := exists_entry_of_mem_keys c page hpage
  exact ⟨e, he, he1, he1 ▸ linksOf_of_mem c hnd e he⟩

theorem totalProb_transition_model (c : Corpus) (page : Page) (d : ℚ)
    (hc : ValidCorpus c) (hpage : page ∈ keys c) :
    totalProb (transition_model c page d) = 1 := by
  have hN : (0 : ℚ) < (c.length : ℚ) := length_pos_rat c hc.nonempty
  obtain ⟨e, he, he1, helinks⟩ := linksOf_entry c hc.nodupKeys page hpage
  unfold transition_model
  by_cases hs : (linksOf c page).length = 0
  · simp only [hs, if_true, eq_self_iff_true]
    have h1 : (c.map (fun e => (e.1, (0 : ℚ)))).map
        (fun e => (e.1, e.2 + 1 / (c.length : ℚ)))
        = (c.map (fun e => (e.1, (0 : ℚ)))).map
          (fun e => (e.1, e.2 + 1 / (c.length : ℚ))) := rfl
    rw [totalProb_map_shift, totalProb_zeroTable]
    simp only [List.length_map]
    field_simp
  · simp only [hs, if_false]
    set z : List (Page × ℚ) := c.map (fun e => (e.1, (0 : ℚ))) with hz
    set x : ℚ := d / ((linksOf c page).length : ℚ) with hx
    have hkz : z.map Prod.fst = keys c := keys_zeroTable c
    have hndz : (z.map Prod.fst).Nodup := by rw [hkz]; exact hc.nodupKeys
    have hsub : ∀ q ∈ linksOf c page, q ∈ z.map Prod.fst := by
      intro q hq
      rw [hkz]
      exact hc.closed e he q (helinks ▸ hq)
    have hL : ((linksOf c page).length : ℚ) ≠ 0 := by
      exact_mod_cast hs
    rw [totalProb_map_shift, totalProb_bumpAll z _ x hndz hsub, length_bumpAll]
    have hzl : z.length = c.length := by simp [hz]
    rw [totalProb_zeroTable, hzl, hx]
    field_simp

theorem transition_model_nonneg (c : Corpus) (page : Page) (d : ℚ)
    (hc : ValidCorpus c) (hpage : page ∈ keys c)
    (hd0 : 0 ≤ d) (hd1 : d ≤ 1) :
    ∀ e ∈ transition_model c page d, 0 ≤ e.2 := by
  intro ev hev
  have hndt : ((transition_model c page d).map Prod.fst).Nodup := by
    rw [keys_transition_model]; exact hc.nodupKeys
  have hval : rankOf (transition_model c page d) ev.1 = ev.2 :=
    rankOf_of_mem _ hndt ev hev
  have hmem : ev.1 ∈ keys c := by
    rw [← keys_transition_model c page d]
    exact List.mem_map_of_mem Prod.fst hev
  have hN : (0 : ℚ) < (c.length : ℚ) := length_pos_rat c hc.nonempty
  obtain ⟨e, he, he1, helinks⟩ := linksOf_entry c hc.nodupKeys page hpage
  rw [← hval]
  by_cases hs : linksOf c page = []
  · rw [tm_val_sink c page d ev.1 hmem hs]
    positivity
  · have hnd : (linksOf c page).Nodup := helinks ▸ hc.nodupLinks e he
    rw [tm_val_nonsink c page d ev.1 hmem hnd hs]
    have hL : (0 : ℚ) < ((linksOf c page).length : ℚ) := by
      have : 0 < (linksOf c page).length := List.length_pos.mpr hs
      exact_mod_cast this
    have h2 : (0 : ℚ) ≤ (1 - d) / (c.length : ℚ) := by
      apply div_nonneg (by linarith) (le_of_lt hN)
    by_cases hmem2 : ev.1 ∈ linksOf c page
    · simp only [hmem2, if_true, eq_self_iff_true]
      have h1 : (0 : ℚ) ≤ d / ((linksOf c page).length : ℚ) :=
        div_nonneg hd0 (le_of_lt hL)
      linarith
    · simp only [hmem2, if_false]
      linarith

/-- C3: for a page with no outbound links, `transition_model` returns the
uniform distribution `1/|graph|` over every page of the graph, the sink
included, for any damping factor. -/
theorem transition_model_sink_uniform (c : Corpus) (page : Page) (d : ℚ)
    (hc : ValidCorpus c) (hpage : page ∈ keys c)
    (hd0 : 0 ≤ d) (hd1 : d ≤ 1) (hsink : linksOf c page = []) :
    ∀ p ∈ keys c, rankOf (transition_model c page d) p = 1 / (c.length : ℚ) :=
  fun p hp => tm_val_sink c page d p hp hsink

/-- Witness for C3 on the graph `{a: {}, b: {a}}` with damping `0.85`:
the sink page `a` gets transition probability `1/2` at every page. -/
theorem transition_model_sink_uniform_witness :
    rankOf (transition_model [("a", []), ("b", ["a"])] "a" (17/20)) "a" = 1 / 2 := by
  have hc : ValidCorpus [("a", []), ("b", ["a"])] :=
    ⟨by decide, by decide, by decide, by decide, by decide⟩
  have h := transition_model_sink_uniform [("a", []), ("b", ["a"])] "a" (17/20)
    hc (by decide) (by norm_num) (by norm_num) (by decide) "a" (by decide)
  simpa using h

/-- C2: for a page with at least one outbound link, `transition_model`
assigns each page the sum of a link share `damping/|links(page)|` (when
linked) and the universal share `(1-damping)/|graph|`. -/
theorem transition_model_linked_mixture (c : Corpus) (page : Page) (d : ℚ)
    (hc : ValidCorpus c) (hpage : page ∈ keys c)
    (hd0 : 0 ≤ d) (hd1 : d ≤ 1) (hlinks : linksOf c page ≠ []) :
    ∀ p ∈ keys c, rankOf (transition_model c page d) p
      = (if p ∈ linksOf c page then d / ((linksOf c page).length : ℚ) else 0)
        + (1 - d) / (c.length : ℚ) := by
  intro p hp
  obtain ⟨e, he, he1, helinks⟩ := linksOf_entry c hc.nodupKeys page hpage
  have hnd : (linksOf c page).Nodup := helinks ▸ hc.nodupLinks e he
  exact tm_val_nonsink c page d p hp hnd hlinks

/-- Witness for C2 on the graph `{a: {b}, b: {a}}` with damping `0.85`:
from page `a`, page `b` receives `0.85/1 + 0.15/2 = 37/40`. -/
theorem transition_model_linked_mixture_witness :
    rankOf (transition_model [("a", ["b"]), ("b", ["a"])] "a" (17/20)) "b" = 37 / 40 := by
  have hc : ValidCorpus [("a", ["b"]), ("b", ["a"])] :=
    ⟨by decide, by decide, by decide, by decide, by decide⟩
  have h := transition_model_linked_mixture [("a", ["b"]), ("b", ["a"])] "a" (17/20)
    hc (by decide) (by norm_num) (by norm_num) (by decide) "b" (by decide)
  have hl : linksOf [("a", ["b"]), ("b", ["a"])] "a" = ["b"] := by decide
  rw [hl] at h
  simp at h
  norm_num at h
  exact h

/-- C8: the distribution returned by `transition_model` sums to exactly 1
and every value in it is nonnegative. -/
theorem transition_model_valid_distribution (c : Corpus) (page : Page) (d : ℚ)
    (hc : ValidCorpus c) (hpage : page ∈ keys c)
    (hd0 : 0 ≤ d) (hd1 : d ≤ 1) :
    totalProb (transition_model c page d) = 1
      ∧ ∀ e ∈ transition_model c page d, 0 ≤ e.2 :=
  ⟨totalProb_transition_model c page d hc hpage,
   transition_model_nonneg c page d hc hpage hd0 hd1⟩

/-- Witness for C8 on the graph `{a: {b}, b: {a}}` with damping `0.85`,
current page `a`. -/
theorem transition_model_valid_distribution_witness :
    totalProb (transition_model [("a", ["b"]), ("b", ["a"])] "a" (17/20)) = 1
      ∧ ∀ e ∈ transition_model [("a", ["b"]), ("b", ["a"])] "a" (17/20), 0 ≤ e.2 := by
  have hc : ValidCorpus [("a", ["b"]), ("b", ["a"])] :=
    ⟨by decide, by decide, by decide, by decide, by decide⟩
  exact transition_model_valid_distribution [("a", ["b"]), ("b", ["a"])] "a" (17/20)
    hc (by decide) (by norm_num) (by norm_num)

/-! ## The stochastic estimator `sample_pagerank`

The random draws are made explicit: the starting page (Python's
`random.choice(list(pagerank))`) and one rational per loop iteration
(Python's `random.random()`). Given those, the function is deterministic. -/

/-- The cumulative-probability draw: `prob += probability;
if prob >= rand_choice: curr_page = page_name; break`. When the scan
finishes without a hit, `curr` is returned unchanged. -/
def scanDraw : List (Page × ℚ) → ℚ → ℚ → Page → Page
  | [], _, _, curr => curr
  | e :: rest, acc, r, curr =>
      if acc + e.2 ≥ r then e.1 else scanDraw rest (acc + e.2) r curr

/-- `pagerank[p] += 1` on the visit-counter table. -/
def bumpCount (l : List (Page × ℕ)) (p : Page) : List (Page × ℕ) :=
  l.map (fun e => if e.1 = p then (e.1, e.2 + 1) else e)

/-- Visit-counter lookup. -/
def countOf : List (Page × ℕ) → Page → ℕ
  | [], _ => 0
  | e :: rest, p => if e.1 = p then e.2 else countOf rest p

/-- `sum(pagerank.values())` over the counter table. -/
def totalCount (l : List (Page × ℕ)) : ℕ := (l.map Prod.snd).sum

/-- One iteration of the sampling loop: compute the transition weights of
the current page, draw the next page, and increment its counter. -/
def sampleStep (c : Corpus) (d : ℚ) (st : Page × List (Page × ℕ)) (r : ℚ) :
    Page × List (Page × ℕ) :=
  (scanDraw (transition_model c st.1 d) 0 r st.1,
   bumpCount st.2 (scanDraw (transition_model c st.1 d) 0 r st.1))

/-- The `for i in range(n-1)` loop of `sample_pagerank`. -/
def sampleLoop (c : Corpus) (d : ℚ) (st : Page × List (Page × ℕ)) :
    List ℚ → Page × List (Page × ℕ)
  | [] => st
  | r :: rest => sampleLoop c d (sampleStep c d st r) rest

/-- `sample_pagerank(corpus, damping_factor, n)` with the randomness
(`start` page and the list of uniform draws) passed in explicitly:
zero all counters, count the start page, run the loop, then divide every
count by `n`. -/
def sample_pagerank (c : Corpus) (d : ℚ) (n : ℕ) (start : Page)
    (draws : List ℚ) : List (Page × ℚ) :=
  ((sampleLoop c d (start, bumpCount (c.map (fun e => (e.1, (0 : ℕ)))) start)
      draws).2).map (fun e => (e.1, (e.2 : ℚ) / (n : ℚ)))

theorem keys_bumpCount (l : List (Page × ℕ)) (p : Page) :
    (bumpCount l p).map Prod.fst = l.map Prod.fst := by
  induction l with
  | nil => rfl
  | cons e rest ih =>
      simp only [bumpCount, List.map_cons] at *
      by_cases h : e.1 = p <;> simp [h, ih]

theorem totalCount_bumpCount (l : List (Page × ℕ)) (p : Page)
    (hnd : (l.map Prod.fst).Nodup) (hp : p ∈ l.map Prod.fst) :
    totalCount (bumpCount l p) = totalCount l + 1 := by
  induction l with
  | nil => simp at hp
  | cons a rest ih =>
      simp only [List.map_cons, List.nodup_cons] at hnd
      by_cases h : a.1 = p
      · have hprest : p ∉ rest.map Prod.fst := h ▸ hnd.1
        have hrest : bumpCount rest p = rest := by
          unfold bumpCount
          have h1 : List.map (fun e : Page × ℕ => if e.1 = p then (e.1, e.2 + 1) else e) rest
              = List.map id rest := by
            apply List.map_congr_left
            intro e he
            have : ¬ e.1 = p := by
              intro hh
              exact hprest (hh ▸ List.mem_map_of_mem Prod.fst he)
            simp [this]
          rw [h1, List.map_id]
        simp only [totalCount, bumpCount, List.map_cons, h, if_true, List.sum_cons,
          eq_self_iff_true] at *
        rw [hrest]
        omega
      · have hp' : p ∈ rest.map Prod.fst := by
          simp only [List.map_cons, List.mem_cons] at hp
          rcases hp with hp | hp
          · exact absurd hp.symm h
          · exact hp
        have := ih hnd.2 hp'
        simp only [totalCount, bumpCount, List.map_cons, h, if_false, List.sum_cons] at *
        omega

theorem totalCount_zero (c : Corpus) :
    totalCount (c.map (fun e => (e.1, (0 : ℕ)))) = 0 := by
  induction c with
  | nil => rfl
  | cons a rest ih => simpa [totalCount] using ih

/-- The scan returns the current page or the key of one of the weights. -/
theorem scanDraw_mem (w : List (Page × ℚ)) (acc r : ℚ) (curr : Page) :
    scanDraw w acc r curr = curr ∨ scanDraw w acc r curr ∈ w.map Prod.fst := by
  induction w generalizing acc with
  | nil => left; rfl
  | cons e rest ih =>
      by_cases h : acc + e.2 ≥ r
      · right; simp [scanDraw, h]
      · rcases ih (acc + e.2) with h1 | h1
        · left; simpa [scanDraw, h] using h1
        · right
          simp only [scanDraw, h, if_false, List.map_cons, List.mem_cons]
          right; exact h1

/-- If no cumulative sum over the weights meets or exceeds the draw, the
scan falls through and leaves the current page unchanged. -/
theorem scanDraw_fallthrough (w : List (Page × ℚ)) (acc r : ℚ) (curr : Page)
    (h : ∀ k, 0 < k → k ≤ w.length → acc + ((w.map Prod.snd).take k).sum < r) :
    scanDraw w acc r curr = curr := by
  induction w generalizing acc with
  | nil => rfl
  | cons e rest ih =>
      have h1 : acc + e.2 < r := by
        have := h 1 (by omega) (by simp only [List.length_cons]; omega)
        simpa using this
      have hlt : ¬ acc + e.2 ≥ r := not_le.mpr h1
      simp only [scanDraw, hlt, if_false]
      apply ih
      intro k hk hkle
      have := h (k + 1) (by omega) (by simp only [List.length_cons]; omega)
      simpa [List.take_succ_cons, add_assoc] using this

/-- One sampling step keeps the current page among the corpus pages,
keeps the counter keys, and increments the total count by exactly one. -/
theorem sampleStep_invariant (c : Corpus) (hc : ValidCorpus c) (d : ℚ)
    (st : Page × List (Page × ℕ)) (r : ℚ)
    (hcurr : st.1 ∈ keys c) (hkeys : st.2.map Prod.fst = keys c) :
    (sampleStep c d st r).1 ∈ keys c
      ∧ (sampleStep c d st r).2.map Prod.fst = keys c
      ∧ totalCount (sampleStep c d st r).2 = totalCount st.2 + 1 := by
  have hnext : (sampleStep c d st r).1 ∈ keys c := by
    unfold sampleStep
    dsimp only
    rcases scanDraw_mem (transition_model c st.1 d) 0 r st.1 with h | h
    · rw [h]; exact hcurr
    · rw [keys_transition_model] at h; exact h
  refine ⟨hnext, ?_, ?_⟩
  · unfold sampleStep
    dsimp only
    rw [keys_bumpCount]
    exact hkeys
  · unfold sampleStep
    dsimp only
    apply totalCount_bumpCount
    · rw [hkeys]; exact hc.nodupKeys
    · rw [hkeys]; exact hnext

theorem sampleLoop_invariant (c : Corpus) (hc : ValidCorpus c) (d : ℚ) :
    ∀ (draws : List ℚ) (st : Page × List (Page × ℕ)),
      st.1 ∈ keys c → st.2.map Prod.fst = keys c →
      (sampleLoop c d st draws).1 ∈ keys c
        ∧ (sampleLoop c d st draws).2.map Prod.fst = keys c
        ∧ totalCount (sampleLoop c d st draws).2
            = totalCount st.2 + draws.length := by
  intro draws
  induction draws with
  | nil => intro st h1 h2; exact ⟨h1, h2, by simp [sampleLoop]⟩
  | cons r rest ih =>
      intro st h1 h2
      obtain ⟨s1, s2, s3⟩ := sampleStep_invariant c hc d st r h1 h2
      obtain ⟨l1, l2, l3⟩ := ih (sampleStep c d st r) s1 s2
      refine ⟨l1, l2, ?_⟩
      simp only [sampleLoop] at *
      rw [l3, s3, List.length_cons]
      omega

/-- Lookup in a counter table mapped to rational ranks. -/
theorem rankOf_mapCount (l : List (Page × ℕ)) (n : ℕ) (p : Page)
    (hp : p ∈ l.map Prod.fst) :
    rankOf (l.map (fun e => (e.1, (e.2 : ℚ) / (n : ℚ)))) p
      = (countOf l p : ℚ) / (n : ℚ) := by
  induction l with
  | nil => simp at hp
  | cons a rest ih =>
      by_cases h : a.1 = p
      · simp [rankOf, countOf, h]
      · have hp' : p ∈ rest.map Prod.fst := by
          simp only [List.map_cons, List.mem_cons] at hp
          rcases hp with hp | hp
          · exact absurd hp.symm h
          · exact hp
        simpa [rankOf, countOf, h] using ih hp'

theorem totalProb_mapCount (l : List (Page × ℕ)) (n : ℕ) :
    totalProb (l.map (fun e => (e.1, (e.2 : ℚ) / (n : ℚ))))
      = (totalCount l : ℚ) / (n : ℚ) := by
  induction l with
  | nil => simp [totalProb, totalCount]
  | cons a rest ih =>
      simp only [totalProb, totalCount, List.map_cons, List.sum_cons] at *
      rw [ih]
      push_cast
      rw [div_add_div_same]

/-- C7: the visit counters of `sample_pagerank` partition exactly `n`
draws, each returned rank is that page's count divided by `n`, and the
returned table sums to exactly 1. -/
theorem sample_pagerank_partition (c : Corpus) (d : ℚ) (n : ℕ) (start : Page)
    (draws : List ℚ) (hc : ValidCorpus c) (hd0 : 0 ≤ d) (hd1 : d ≤ 1)
    (hstart : start ∈ keys c) (hn : n = draws.length + 1) :
    totalCount ((sampleLoop c d
        (start, bumpCount (c.map (fun e => (e.1, (0 : ℕ)))) start) draws).2) = n
      ∧ (∀ p ∈ keys c, rankOf (sample_pagerank c d n start draws) p
          = (countOf ((sampleLoop c d
              (start, bumpCount (c.map (fun e => (e.1, (0 : ℕ)))) start) draws).2) p : ℚ)
            / (n : ℚ))
      ∧ totalProb (sample_pagerank c d n start draws) = 1 := by
  have hk0 : (c.map (fun e => (e.1, (0 : ℕ)))).map Prod.fst = keys c := by
    rw [List.map_map]; simp [keys, Function.comp]
  have hk1 : (bumpCount (c.map (fun e => (e.1, (0 : ℕ)))) start).map Prod.fst = keys c := by
    rw [keys_bumpCount]; exact hk0
  have ht1 : totalCount (bumpCount (c.map (fun e => (e.1, (0 : ℕ)))) start) = 1 := by
    rw [totalCount_bumpCount _ start (hk0 ▸ hc.nodupKeys) (hk0 ▸ hstart), totalCount_zero]
  obtain ⟨l1, l2, l3⟩ := sampleLoop_invariant c hc d draws
    (start, bumpCount (c.map (fun e => (e.1, (0 : ℕ)))) start) hstart hk1
  have htot : totalCount ((sampleLoop c d
      (start, bumpCount (c.map (fun e => (e.1, (0 : ℕ)))) start) draws).2) = n := by
    rw [l3, ht1, hn]
    omega
  refine ⟨htot, ?_, ?_⟩
  · intro p hp
    unfold sample_pagerank
    exact rankOf_mapCount _ n p (l2 ▸ hp)
  · unfold sample_pagerank
    rw [totalProb_mapCount, htot]
    have hpos : 0 < n := by omega
    have hn0 : (n : ℚ) ≠ 0 := by exact_mod_cast hpos.ne'
    field_simp

/-- Witness for C7: graph `{a: {b}, b: {a}}`, damping `0.85`, start `a`,
three draws, `n = 4`. -/
theorem sample_pagerank_partition_witness :
    totalProb (sample_pagerank [("a", ["b"]), ("b", ["a"])] (17/20) 4 "a"
      [1/2, 1/3, 9/10]) = 1 := by
  have hc : ValidCorpus [("a", ["b"]), ("b", ["a"])] :=
    ⟨by decide, by decide, by decide, by decide, by decide⟩
  exact (sample_pagerank_partition [("a", ["b"]), ("b", ["a"])] (17/20) 4 "a"
    [1/2, 1/3, 9/10] hc (by norm_num) (by norm_num) (by decide) (by decide)).2.2

/-- C10: each iteration of the sampling loop increments exactly one
counter — when the cumulative scan completes without any cumulative
probability meeting the draw, the current page is kept and its counter is
incremented anyway, so the total count still grows by exactly one. -/
theorem sample_draw_fallthrough_safe (c : Corpus) (d r : ℚ) (curr : Page)
    (counts : List (Page × ℕ)) (hc : ValidCorpus c) (hcurr : curr ∈ keys c)
    (hkeys : counts.map Prod.fst = keys c)
    (hfall : ∀ k, 0 < k → k ≤ (transition_model c curr d).length →
      (((transition_model c curr d).map Prod.snd).take k).sum < r) :
    (sampleStep c d (curr, counts) r).1 = curr
      ∧ (sampleStep c d (curr, counts) r).2 = bumpCount counts curr
      ∧ totalCount (sampleStep c d (curr, counts) r).2 = totalCount counts + 1 := by
  have hscan : scanDraw (transition_model c curr d) 0 r curr = curr := by
    apply scanDraw_fallthrough
    intro k hk hkle
    have := hfall k hk hkle
    linarith
  refine ⟨?_, ?_, ?_⟩
  · unfold sampleStep
    dsimp only
    exact hscan
  · unfold sampleStep
    dsimp only
    rw [hscan]
  · unfold sampleStep
    dsimp only
    rw [hscan]
    exact totalCount_bumpCount counts curr (hkeys ▸ hc.nodupKeys) (hkeys ▸ hcurr)

/-- Witness for C10: graph `{a: {b}, b: {a}}`, damping `0.85`, draw
`r = 2` (unreachable by the cumulative sums, which stay at most 1):
the step keeps page `a` and still increments one counter. -/
theorem sample_draw_fallthrough_safe_witness :
    (sampleStep [("a", ["b"]), ("b", ["a"])] (17/20) ("a", [("a", 1), ("b", 0)]) 2).1 = "a"
      ∧ totalCount (sampleStep [("a", ["b"]), ("b", ["a"])] (17/20)
          ("a", [("a", 1), ("b", 0)]) 2).2 = 2 := by
  have hc : ValidCorpus [("a", ["b"]), ("b", ["a"])] :=
    ⟨by decide, by decide, by decide, by decide, by decide⟩
  have h := sample_draw_fallthrough_safe [("a", ["b"]), ("b", ["a"])] (17/20) 2 "a"
    [("a", 1), ("b", 0)] hc (by decide) (by decide)
    (by
      intro k hk hkle
      have hlen : (transition_model [("a", ["b"]), ("b", ["a"])] "a" (17/20)).length = 2 := by
        decide
      rw [hlen] at hkle
      interval_cases k
      · simp [transition_model, linksOf, bumpAll, bump]
        norm_num
      · simp [transition_model, linksOf, bumpAll, bump]
        norm_num)
  exact ⟨h.1, by rw [h.2.2]; rfl⟩

/-! ## The iterative solver `iterate_pagerank`

The body of the `while max_change > 0.001` loop is embedded as one total
round function; the unbounded loop itself is the sequence of its iterates.
The renormalization's division is fallible (Python raises
`ZeroDivisionError` when the new ranks sum to zero), hence `Option`. -/

/-- The initialization loop of `iterate_pagerank`: every page's rank is
set to `prob_random = (1 - damping_factor) / len(corpus)`. -/
def init_rank (c : Corpus) (d : ℚ) : List (Page × ℚ) :=
  c.map (fun e => (e.1, (1 - d) / (c.length : ℚ)))

/-- The inner accumulation over `other_page`: sinks contribute
`pagerank[other] * (1/len(corpus))`, linking pages contribute
`pagerank[other] / len(corpus[other])`, all read from `pr`. -/
def prob_choice (c : Corpus) (pr : Page → ℚ) (page : Page) : ℚ :=
  (c.map (fun e =>
    if e.2.length = 0 then pr e.1 * (1 / (c.length : ℚ))
    else if page ∈ e.2 then pr e.1 / (e.2.length : ℚ)
    else 0)).sum

/-- One update sweep: `new_pagerank[page] = prob_random +
damping_factor * prob_choice`, every read going through the previous
table `t`, never through a value written in this sweep. -/
def newRanks (c : Corpus) (d : ℚ) (t : List (Page × ℚ)) : List (Page × ℚ) :=
  c.map (fun e => (e.1, (1 - d) / (c.length : ℚ) + d * prob_choice c (rankOf t) e.1))

/-- The renormalization: divide every rank by `sum(new_pagerank.values())`;
Python raises `ZeroDivisionError` when that sum is zero. -/
def normalizeRanks (t : List (Page × ℚ)) : Option (List (Page × ℚ)) :=
  if totalProb t = 0 then none
  else some (t.map (fun e => (e.1, e.2 / totalProb t)))

/-- One full round of the convergence loop: update sweep, then
renormalization. -/
def iterRound (c : Corpus) (d : ℚ) (t : List (Page × ℚ)) :
    Option (List (Page × ℚ)) :=
  normalizeRanks (newRanks c d t)

/-- `max_change` of a round: the largest absolute per-page difference,
accumulated with `max` from `0` exactly as the code does. -/
def maxChange (c : Corpus) (old nw : List (Page × ℚ)) : ℚ :=
  (c.map (fun e => |rankOf old e.1 - rankOf nw e.1|)).foldl max 0

/-- The table held by `pagerank` after `k` completed rounds (`none` once a
round has divided by zero). -/
def iterSeq (c : Corpus) (d : ℚ) : ℕ → Option (List (Page × ℚ))
  | 0 => some (init_rank c d)
  | k + 1 => (iterSeq c d k).bind (iterRound c d)

/-- The update equation exactly as the spec states it (`contribution`). -/
def specContribution (c : Corpus) (pr : Page → ℚ) (q p : Page) : ℚ :=
  if p ∈ linksOf c q then pr q / ((linksOf c q).length : ℚ)
  else if (linksOf c q).length = 0 then pr q / (c.length : ℚ)
  else 0

/-- C1: each round computes every page's new (pre-normalization) rank as
`(1-d)/N + d · Σ_q contribution(q, p)`, the sum running over all pages,
with every contribution read from the previous round's table `t`. -/
theorem iterate_round_equation (c : Corpus) (hc : ValidCorpus c) (d : ℚ)
    (hd0 : 0 ≤ d) (hd1 : d ≤ 1) (t : List (Page × ℚ)) :
    ∀ p ∈ keys c, rankOf (newRanks c d t) p
      = (1 - d) / (c.length : ℚ)
        + d * ((c.map (fun e => specContribution c (rankOf t) e.1 p)).sum) := by
  intro p hp
  have h1 : rankOf (newRanks c d t) p
      = (1 - d) / (c.length : ℚ) + d * prob_choice c (rankOf t) p := by
    unfold newRanks
    exact rankOf_mapValue c
      (fun q => (1 - d) / (c.length : ℚ) + d * prob_choice c (rankOf t) q) p hp
  rw [h1]
  have h2 : prob_choice c (rankOf t) p
      = (c.map (fun e => specContribution c (rankOf t) e.1 p)).sum := by
    unfold prob_choice
    congr 1
    apply List.map_congr_left
    intro e he
    have hlk : linksOf c e.1 = e.2 := linksOf_of_mem c hc.nodupKeys e he
    unfold specContribution
    rw [hlk]
    by_cases hlen : e.2.length = 0
    · have hemp : e.2 = [] := List.length_eq_zero.mp hlen
      have hnm : p ∉ e.2 := by rw [hemp]; exact List.not_mem_nil p
      simp only [hlen, if_true, hnm, if_false, eq_self_iff_true]
      rw [mul_one_div]
    · by_cases hmem : p ∈ e.2
      · simp [hlen, hmem]
      · simp [hlen, hmem]
  rw [h2]

/-- Witness for C1: graph `{a: {b}, b: {a}}`, damping `0.85`, previous
table `{a: 1/2, b: 1/2}`, page `a`: both sides equal `1/2`. -/
theorem iterate_round_equation_witness :
    rankOf (newRanks [("a", ["b"]), ("b", ["a"])] (17/20)
        [("a", 1/2), ("b", 1/2)]) "a" = 1/2
      ∧ (1 - 17/20) / (([("a", ["b"]), ("b", ["a"])] : Corpus).length : ℚ)
          + (17/20) * ((([("a", ["b"]), ("b", ["a"])] : Corpus).map
              (fun e => specContribution [("a", ["b"]), ("b", ["a"])]
                (rankOf [("a", 1/2), ("b", 1/2)]) e.1 "a")).sum) = 1/2 := by
  have hc : ValidCorpus [("a", ["b"]), ("b", ["a"])] :=
    ⟨by decide, by decide, by decide, by decide, by decide⟩
  have h := iterate_round_equation [("a", ["b"]), ("b", ["a"])] hc (17/20)
    (by norm_num) (by norm_num) [("a", 1/2), ("b", 1/2)] "a" (by decide)
  have h2 : (1 - 17/20) / (([("a", ["b"]), ("b", ["a"])] : Corpus).length : ℚ)
      + (17/20) * ((([("a", ["b"]), ("b", ["a"])] : Corpus).map
          (fun e => specContribution [("a", ["b"]), ("b", ["a"])]
            (rankOf [("a", 1/2), ("b", 1/2)]) e.1 "a")).sum) = 1/2 := by
    simp [specContribution, linksOf, rankOf, keys]
    norm_num
  exact ⟨h.trans h2, h2⟩

/-- C4 counterexample: on the one-page graph `{a: {}}` with damping
`0.85`, `iterate_pagerank` initializes the rank to `(1-0.85)/1 = 0.15`,
not to the uniform prior `1/|graph| = 1`. -/
theorem iterate_init_not_uniform :
    rankOf (init_rank [("a", [])] (17/20)) "a" = 3/20
      ∧ rankOf (init_rank [("a", [])] (17/20)) "a"
          ≠ 1 / (([("a", [])] : Corpus).length : ℚ) := by
  constructor
  · norm_num [init_rank, rankOf]
  · norm_num [init_rank, rankOf]

/-- C4 as amended: `iterate_pagerank` initializes every page's rank to
`(1 - damping)/|graph|` (the code stores `prob_random`, not the uniform
prior `1/|graph|`) before the first update round. -/
theorem iterate_init_rank (c : Corpus) (d : ℚ) (hc : ValidCorpus c)
    (hd0 : 0 ≤ d) (hd1 : d ≤ 1) :
    ∀ p ∈ keys c, rankOf (init_rank c d) p = (1 - d) / (c.length : ℚ) := by
  intro p hp
  unfold init_rank
  exact rankOf_mapValue c (fun _ => (1 - d) / (c.length : ℚ)) p hp

/-- Witness for the amended C4 on `{a: {}}` with damping `0.85`. -/
theorem iterate_init_rank_witness :
    rankOf (init_rank [("a", [])] (17/20)) "a" = (1 - 17/20) / 1 := by
  have hc : ValidCorpus [("a", [])] :=
    ⟨by decide, by decide, by decide, by decide, by decide⟩
  have h := iterate_init_rank [("a", [])] (17/20) hc (by norm_num) (by norm_num)
    "a" (by decide)
  simpa using h

/-- C5: the code performs no input validation at all. With damping `2`
(outside `[0,1]`) on the graph `{a: {b}, b: {a}}`, `transition_model`
silently returns the negative "probability" `-1/2` for page `a` instead
of signalling an `InvalidArgument` condition; the samplers then consume
these numbers unchecked. -/
theorem transition_model_no_validation :
    rankOf (transition_model [("a", ["b"]), ("b", ["a"])] "a" 2) "a" = -(1/2) := by
  simp [transition_model, linksOf, bumpAll, bump, rankOf]
  norm_num

theorem totalProb_map_div (u : List (Page × ℚ)) (s : ℚ) :
    totalProb (u.map (fun e => (e.1, e.2 / s))) = totalProb u / s := by
  induction u with
  | nil => simp [totalProb]
  | cons a rest ih =>
      simp only [totalProb, List.map_cons, List.sum_cons] at *
      rw [ih, div_add_div_same]

theorem normalizeRanks_total (u v : List (Page × ℚ))
    (h : normalizeRanks u = some v) : totalProb v = 1 := by
  unfold normalizeRanks at h
  by_cases h0 : totalProb u = 0
  · rw [if_pos h0] at h
    exact absurd h (Option.noConfusion)
  · rw [if_neg h0] at h
    have hv : v = u.map (fun e => (e.1, e.2 / totalProb u)) :=
      (Option.some_inj.mp h).symm
    subst hv
    rw [totalProb_map_div, div_self h0]

/-- C6: whenever a round of the convergence loop completes (its division
by the sum of the new ranks succeeds), the resulting table sums to exactly
1 — the invariant holding at the end of every round and hence for the
returned table. -/
theorem iterate_round_sums_to_one (c : Corpus) (d : ℚ) (k : ℕ)
    (t : List (Page × ℚ)) (h : iterSeq c d (k + 1) = some t) :
    totalProb t = 1 := by
  have h' : (iterSeq c d k).bind (iterRound c d) = some t := h
  cases hk : iterSeq c d k with
  | none =>
      rw [hk] at h'
      simp at h'
  | some t' =>
      rw [hk] at h'
      exact normalizeRanks_total (newRanks c d t') t h'

/-- Witness for C6: one round on the one-page graph `{a: {}}` with
damping `1/2` produces the table `{a: 1}`, which sums to 1. -/
theorem iterate_round_sums_to_one_witness :
    totalProb [(("a" : Page), (1 : ℚ))] = 1 := by
  have h1 : iterSeq [("a", [])] (1/2) 1 = some [(("a" : Page), (1 : ℚ))] := by
    simp [iterSeq, iterRound, init_rank, newRanks, prob_choice, normalizeRanks,
      totalProb, rankOf]
    norm_num
  exact iterate_round_sums_to_one [("a", [])] (1/2) 0 [(("a" : Page), (1 : ℚ))] h1

/-! ## Termination of the convergence loop (C9)

The key facts: viewed per page, one update sweep is the affine map
`u ↦ (1-d)/N + d·(Σ_q u(q)·wCoef(q,p))` whose coefficient columns sum
to 1, so the sweep preserves table totals and is an L¹-contraction with
factor `d`; once a table sums to 1 the renormalization is the identity,
so from round 2 on the per-round changes decay geometrically. -/

/-- The weight with which page `q`'s previous rank reaches page `p` in one
update sweep: `1/N` from a sink, `1/|links(q)|` along a link, else `0`. -/
def wCoef (c : Corpus) (q p : Page) : ℚ :=
  if (linksOf c q).length = 0 then 1 / (c.length : ℚ)
  else if p ∈ linksOf c q then 1 / ((linksOf c q).length : ℚ) else 0

theorem wCoef_nonneg (c : Corpus) (q p : Page) : 0 ≤ wCoef c q p := by
  unfold wCoef
  by_cases h0 : (linksOf c q).length = 0
  · rw [if_pos h0]
    exact div_nonneg zero_le_one (Nat.cast_nonneg _)
  · rw [if_neg h0]
    by_cases hx : p ∈ linksOf c q
    · rw [if_pos hx]
      exact div_nonneg zero_le_one (Nat.cast_nonneg _)
    · rw [if_neg hx]

theorem sum_over_keys (c : Corpus) (hnd : (keys c).Nodup) (g : Page → ℚ) :
    (c.map (fun e => g e.1)).sum = ∑ k in (keys c).toFinset, g k := by
  have h1 : c.map (fun e => g e.1) = (keys c).map g := by
    unfold keys
    rw [List.map_map]
    rfl
  rw [h1]
  exact (List.sum_toFinset g hnd).symm

theorem prob_choice_coef (c : Corpus) (hnd : (keys c).Nodup) (pr : Page → ℚ)
    (x : Page) :
    prob_choice c pr x = ∑ q in (keys c).toFinset, pr q * wCoef c q x := by
  unfold prob_choice
  have h1 : ∀ e ∈ c, (if e.2.length = 0 then pr e.1 * (1 / (c.length : ℚ))
      else if x ∈ e.2 then pr e.1 / (e.2.length : ℚ) else 0)
        = pr e.1 * wCoef c e.1 x := by
    intro e he
    have hlk := linksOf_of_mem c hnd e he
    unfold wCoef
    rw [hlk]
    by_cases h0 : e.2.length = 0
    · simp [h0]
    · by_cases hx : x ∈ e.2
      · simp only [h0, if_false, hx, if_true, eq_self_iff_true]
        rw [mul_one_div]
      · simp [h0, hx]
  rw [List.map_congr_left h1]
  exact sum_over_keys c hnd (fun q => pr q * wCoef c q x)

theorem keys_card (c : Corpus) (hnd : (keys c).Nodup) :
    (keys c).toFinset.card = c.length := by
  rw [List.toFinset_card_of_nodup hnd]
  simp [keys]

theorem wCoef_colsum (c : Corpus) (hc : ValidCorpus c) (q : Page)
    (hq : q ∈ keys c) :
    ∑ p in (keys c).toFinset, wCoef c q p = 1 := by
  have hN : (0 : ℚ) < (c.length : ℚ) := length_pos_rat c hc.nonempty
  obtain ⟨e, he, he1, helinks⟩ := linksOf_entry c hc.nodupKeys q hq
  by_cases h0 : (linksOf c q).length = 0
  · have hconst : ∀ p ∈ (keys c).toFinset, wCoef c q p = 1 / (c.length : ℚ) := by
      intro p _
      unfold wCoef
      rw [if_pos h0]
    rw [Finset.sum_congr rfl hconst, Finset.sum_const, keys_card c hc.nodupKeys,
      nsmul_eq_mul]
    field_simp
  · have hL : (0 : ℚ) < ((linksOf c q).length : ℚ) := by
      have : 0 < (linksOf c q).length := Nat.pos_of_ne_zero h0
      exact_mod_cast this
    have hco : ∀ p ∈ (keys c).toFinset,
        wCoef c q p = if p ∈ linksOf c q then 1 / ((linksOf c q).length : ℚ) else 0 := by
      intro p _
      unfold wCoef
      rw [if_neg h0]
    rw [Finset.sum_congr rfl hco, ← Finset.sum_filter]
    have hfe : (keys c).toFinset.filter (fun p => p ∈ linksOf c q)
        = (linksOf c q).toFinset := by
      ext x
      simp only [Finset.mem_filter, List.mem_toFinset]
      constructor
      · rintro ⟨_, hx⟩
        exact hx
      · intro hx
        refine ⟨?_, hx⟩
        exact hc.closed e he x (by rw [← helinks]; exact hx)
    have hndl : (linksOf c q).Nodup := by
      rw [helinks]
      exact hc.nodupLinks e he
    rw [hfe, Finset.sum_const, List.toFinset_card_of_nodup hndl, nsmul_eq_mul]
    field_simp

theorem totalProb_eq_sum_keys (c : Corpus) (hnd : (keys c).Nodup)
    (t : List (Page × ℚ)) (ht : t.map Prod.fst = keys c) :
    totalProb t = ∑ k in (keys c).toFinset, rankOf t k := by
  have hndt : (t.map Prod.fst).Nodup := ht ▸ hnd
  have h1 : t.map Prod.snd = t.map (fun e => rankOf t e.1) := by
    apply List.map_congr_left
    intro e he
    exact (rankOf_of_mem t hndt e he).symm
  unfold totalProb
  rw [h1]
  have h2 : t.map (fun e => rankOf t e.1) = (t.map Prod.fst).map (rankOf t) := by
    rw [List.map_map]
    rfl
  rw [h2, ht]
  exact (List.sum_toFinset (rankOf t) hnd).symm

theorem keys_newRanks (c : Corpus) (d : ℚ) (t : List (Page × ℚ)) :
    (newRanks c d t).map Prod.fst = keys c := by
  unfold newRanks
  rw [List.map_map]
  simp [keys, Function.comp]

theorem totalProb_newRanks (c : Corpus) (hc : ValidCorpus c) (d : ℚ)
    (t : List (Page × ℚ)) :
    totalProb (newRanks c d t)
      = (1 - d) + d * ∑ q in (keys c).toFinset, rankOf t q := by
  have hN : (0 : ℚ) < (c.length : ℚ) := length_pos_rat c hc.nonempty
  have h1 : totalProb (newRanks c d t)
      = ∑ p in (keys c).toFinset,
          ((1 - d) / (c.length : ℚ) + d * prob_choice c (rankOf t) p) := by
    unfold totalProb newRanks
    rw [List.map_map]
    exact sum_over_keys c hc.nodupKeys
      (fun p => (1 - d) / (c.length : ℚ) + d * prob_choice c (rankOf t) p)
  rw [h1, Finset.sum_add_distrib, Finset.sum_const, keys_card c hc.nodupKeys,
    nsmul_eq_mul, ← Finset.mul_sum]
  have h2 : ∑ p in (keys c).toFinset, prob_choice c (rankOf t) p
      = ∑ q in (keys c).toFinset, rankOf t q := by
    have h3 : ∀ p ∈ (keys c).toFinset, prob_choice c (rankOf t) p
        = ∑ q in (keys c).toFinset, rankOf t q * wCoef c q p :=
      fun p _ => prob_choice_coef c hc.nodupKeys (rankOf t) p
    rw [Finset.sum_congr rfl h3, Finset.sum_comm]
    apply Finset.sum_congr rfl
    intro q hq
    rw [← Finset.mul_sum, wCoef_colsum c hc q (List.mem_toFinset.mp hq), mul_one]
  rw [h2]
  congr 1
  field_simp

/-- One update sweep contracts L¹ distances between rank tables by a
factor `d`. -/
theorem newRanks_l1_contraction (c : Corpus) (hc : ValidCorpus c) (d : ℚ)
    (hd0 : 0 ≤ d) (t t' : List (Page × ℚ)) :
    ∑ p in (keys c).toFinset, |rankOf (newRanks c d t) p - rankOf (newRanks c d t') p|
      ≤ d * ∑ q in (keys c).toFinset, |rankOf t q - rankOf t' q| := by
  have hndk := hc.nodupKeys
  have h1 : ∀ p ∈ (keys c).toFinset,
      |rankOf (newRanks c d t) p - rankOf (newRanks c d t') p|
        = |d * ∑ q in (keys c).toFinset,
            (rankOf t q - rankOf t' q) * wCoef c q p| := by
    intro p hp
    have hpk : p ∈ keys c := List.mem_toFinset.mp hp
    have e1 : rankOf (newRanks c d t) p
        = (1 - d) / (c.length : ℚ) + d * prob_choice c (rankOf t) p := by
      unfold newRanks
      exact rankOf_mapValue c
        (fun x => (1 - d) / (c.length : ℚ) + d * prob_choice c (rankOf t) x) p hpk
    have e2 : rankOf (newRanks c d t') p
        = (1 - d) / (c.length : ℚ) + d * prob_choice c (rankOf t') p := by
      unfold newRanks
      exact rankOf_mapValue c
        (fun x => (1 - d) / (c.length : ℚ) + d * prob_choice c (rankOf t') x) p hpk
    rw [e1, e2, prob_choice_coef c hndk (rankOf t) p,
      prob_choice_coef c hndk (rankOf t') p]
    have hsub : ∑ q in (keys c).toFinset, (rankOf t q - rankOf t' q) * wCoef c q p
        = (∑ q in (keys c).toFinset, rankOf t q * wCoef c q p)
          - ∑ q in (keys c).toFinset, rankOf t' q * wCoef c q p := by
      rw [← Finset.sum_sub_distrib]
      exact Finset.sum_congr rfl (fun q _ => by ring)
    rw [hsub]
    congr 1
    ring
  rw [Finset.sum_congr rfl h1]
  have h2 : ∀ p ∈ (keys c).toFinset,
      |d * ∑ q in (keys c).toFinset, (rankOf t q - rankOf t' q) * wCoef c q p|
        ≤ d * ∑ q in (keys c).toFinset, |rankOf t q - rankOf t' q| * wCoef c q p := by
    intro p _
    rw [abs_mul, abs_of_nonneg hd0]
    apply mul_le_mul_of_nonneg_left _ hd0
    calc |∑ q in (keys c).toFinset, (rankOf t q - rankOf t' q) * wCoef c q p|
        ≤ ∑ q in (keys c).toFinset, |(rankOf t q - rankOf t' q) * wCoef c q p| :=
          Finset.abs_sum_le_sum_abs _ _
      _ = ∑ q in (keys c).toFinset, |rankOf t q - rankOf t' q| * wCoef c q p := by
          apply Finset.sum_congr rfl
          intro q _
          rw [abs_mul, abs_of_nonneg (wCoef_nonneg c q p)]
  apply le_trans (Finset.sum_le_sum h2)
  have h3 : ∑ p in (keys c).toFinset,
      d * ∑ q in (keys c).toFinset, |rankOf t q - rankOf t' q| * wCoef c q p
        = d * ∑ q in (keys c).toFinset,
            |rankOf t q - rankOf t' q| * ∑ p in (keys c).toFinset, wCoef c q p := by
    rw [← Finset.mul_sum, Finset.sum_comm]
    congr 1
    apply Finset.sum_congr rfl
    intro q _
    rw [← Finset.mul_sum]
  rw [h3]
  apply le_of_eq
  congr 1
  apply Finset.sum_congr rfl
  intro q hq
  rw [wCoef_colsum c hc q (List.mem_toFinset.mp hq), mul_one]

/-- The tables held from round 1 on, when no renormalization is needed
any more: `tailSeq t1 j` is the table after round `j+1`. -/
def tailSeq (c : Corpus) (d : ℚ) (t1 : List (Page × ℚ)) : ℕ → List (Page × ℚ)
  | 0 => t1
  | j + 1 => newRanks c d (tailSeq c d t1 j)

/-- If a table sums to 1 the renormalization divides by 1 and is the
identity. -/
theorem normalizeRanks_of_total_one (u : List (Page × ℚ))
    (h : totalProb u = 1) : normalizeRanks u = some u := by
  unfold normalizeRanks
  rw [if_neg (by rw [h]; norm_num)]
  congr 1
  have h1 : u.map (fun e => (e.1, e.2 / totalProb u)) = u.map id := by
    apply List.map_congr_left
    intro e _
    rw [h, div_one]
    rfl
  rw [h1, List.map_id]

theorem tailSeq_keys (c : Corpus) (d : ℚ) (t1 : List (Page × ℚ))
    (h1 : t1.map Prod.fst = keys c) :
    ∀ j, (tailSeq c d t1 j).map Prod.fst = keys c := by
  intro j
  induction j with
  | zero => exact h1
  | succ j _ => exact keys_newRanks c d (tailSeq c d t1 j)

theorem tailSeq_total (c : Corpus) (hc : ValidCorpus c) (d : ℚ)
    (t1 : List (Page × ℚ)) (h1 : t1.map Prod.fst = keys c)
    (htot : totalProb t1 = 1) :
    ∀ j, totalProb (tailSeq c d t1 j) = 1 := by
  intro j
  induction j with
  | zero => exact htot
  | succ j ih =>
      have hkj := tailSeq_keys c d t1 h1 j
      have := totalProb_newRanks c hc d (tailSeq c d t1 j)
      rw [show tailSeq c d t1 (j + 1) = newRanks c d (tailSeq c d t1 j) from rfl,
        this, ← totalProb_eq_sum_keys c hc.nodupKeys (tailSeq c d t1 j) hkj, ih]
      ring

/-- `iterSeq` follows `tailSeq` from round 1 on: once the table sums to 1
every later renormalization is the identity. -/
theorem iterSeq_eq_tailSeq (c : Corpus) (hc : ValidCorpus c) (d : ℚ)
    (t1 : List (Page × ℚ)) (h1 : t1.map Prod.fst = keys c)
    (htot : totalProb t1 = 1) (hbase : iterSeq c d 1 = some t1) :
    ∀ j, iterSeq c d (j + 1) = some (tailSeq c d t1 j) := by
  intro j
  induction j with
  | zero => exact hbase
  | succ j ih =>
      have hstep : iterSeq c d (j + 2) = (iterSeq c d (j + 1)).bind (iterRound c d) := rfl
      rw [hstep, ih]
      show iterRound c d (tailSeq c d t1 j) = some (tailSeq c d t1 (j + 1))
      unfold iterRound
      have hnew : totalProb (newRanks c d (tailSeq c d t1 j)) = 1 := by
        rw [totalProb_newRanks c hc d (tailSeq c d t1 j),
          ← totalProb_eq_sum_keys c hc.nodupKeys (tailSeq c d t1 j)
            (tailSeq_keys c d t1 h1 j),
          tailSeq_total c hc d t1 h1 htot j]
        ring
      rw [normalizeRanks_of_total_one _ hnew]
      rfl

/-- The per-round L¹ differences of `tailSeq` decay geometrically. -/
theorem tailSeq_decay (c : Corpus) (hc : ValidCorpus c) (d : ℚ)
    (hd0 : 0 ≤ d) (t1 : List (Page × ℚ)) :
    ∀ j, ∑ p in (keys c).toFinset,
        |rankOf (tailSeq c d t1 j) p - rankOf (tailSeq c d t1 (j + 1)) p|
      ≤ d ^ j * ∑ p in (keys c).toFinset,
        |rankOf (tailSeq c d t1 0) p - rankOf (tailSeq c d t1 1) p| := by
  intro j
  induction j with
  | zero => simp
  | succ j ih =>
      have hco := newRanks_l1_contraction c hc d hd0
        (tailSeq c d t1 j) (tailSeq c d t1 (j + 1))
      have hstep : ∑ p in (keys c).toFinset,
          |rankOf (tailSeq c d t1 (j + 1)) p - rankOf (tailSeq c d t1 (j + 2)) p|
            ≤ d * ∑ p in (keys c).toFinset,
              |rankOf (tailSeq c d t1 j) p - rankOf (tailSeq c d t1 (j + 1)) p| := hco
      calc ∑ p in (keys c).toFinset,
          |rankOf (tailSeq c d t1 (j + 1)) p - rankOf (tailSeq c d t1 (j + 1 + 1)) p|
          ≤ d * ∑ p in (keys c).toFinset,
              |rankOf (tailSeq c d t1 j) p - rankOf (tailSeq c d t1 (j + 1)) p| := hstep
        _ ≤ d * (d ^ j * ∑ p in (keys c).toFinset,
              |rankOf (tailSeq c d t1 0) p - rankOf (tailSeq c d t1 1) p|) :=
            mul_le_mul_of_nonneg_left ih hd0
        _ = d ^ (j + 1) * ∑ p in (keys c).toFinset,
              |rankOf (tailSeq c d t1 0) p - rankOf (tailSeq c d t1 1) p| := by
            ring

/-- `max_change` (a `foldl max 0`) is at most the sum of its nonnegative
entries. -/
theorem foldl_max_le_sum (l : List ℚ) (hnn : ∀ x ∈ l, 0 ≤ x) :
    ∀ a, 0 ≤ a → l.foldl max a ≤ a + l.sum := by
  induction l with
  | nil => intro a _; simp
  | cons x xs ih =>
      intro a ha
      have hx : 0 ≤ x := hnn x (List.mem_cons_self x xs)
      have hxs : ∀ y ∈ xs, 0 ≤ y := fun y hy => hnn y (List.mem_cons_of_mem x hy)
      have hmax : (0 : ℚ) ≤ max a x := le_trans ha (le_max_left a x)
      have h1 := ih hxs (max a x) hmax
      have hsum : 0 ≤ xs.sum := List.sum_nonneg hxs
      simp only [List.foldl_cons, List.sum_cons]
      apply le_trans h1
      have : max a x ≤ a + x := max_le (by linarith) (by linarith)
      linarith

theorem maxChange_le_l1 (c : Corpus) (hnd : (keys c).Nodup)
    (t t' : List (Page × ℚ)) :
    maxChange c t t' ≤ ∑ p in (keys c).toFinset, |rankOf t p - rankOf t' p| := by
  unfold maxChange
  have hnn : ∀ x ∈ c.map (fun e => |rankOf t e.1 - rankOf t' e.1|), 0 ≤ x := by
    intro x hx
    obtain ⟨e, _, he⟩ := List.mem_map.mp hx
    rw [← he]
    exact abs_nonneg _
  have h1 := foldl_max_le_sum _ hnn 0 le_rfl
  rw [zero_add] at h1
  apply le_trans h1
  rw [sum_over_keys c hnd (fun p => |rankOf t p - rankOf t' p|)]

theorem keys_init_rank (c : Corpus) (d : ℚ) :
    (init_rank c d).map Prod.fst = keys c := by
  unfold init_rank
  rw [List.map_map]
  simp [keys, Function.comp]

theorem totalProb_init_rank (c : Corpus) (hc : ValidCorpus c) (d : ℚ) :
    totalProb (init_rank c d) = 1 - d := by
  have hN : (0 : ℚ) < (c.length : ℚ) := length_pos_rat c hc.nonempty
  rw [totalProb_eq_sum_keys c hc.nodupKeys (init_rank c d) (keys_init_rank c d)]
  have h1 : ∀ k ∈ (keys c).toFinset,
      rankOf (init_rank c d) k = (1 - d) / (c.length : ℚ) := by
    intro k hk
    unfold init_rank
    exact rankOf_mapValue c (fun _ => (1 - d) / (c.length : ℚ)) k
      (List.mem_toFinset.mp hk)
  rw [Finset.sum_congr rfl h1, Finset.sum_const, keys_card c hc.nodupKeys,
    nsmul_eq_mul]
  field_simp

/-- C9: for any valid graph and damping factor in `[0,1)` the convergence
loop of `iterate_pagerank` terminates — some round `k+1` is reached (all
divisions defined along the way) after which every page's rank has moved
by at most the tolerance `0.001`, falsifying the loop condition. -/
theorem iterate_pagerank_terminates (c : Corpus) (hc : ValidCorpus c) (d : ℚ)
    (hd0 : 0 ≤ d) (hd1 : d < 1) :
    ∃ k t t', iterSeq c d k = some t ∧ iterSeq c d (k + 1) = some t'
      ∧ maxChange c t t' ≤ 1 / 1000 := by
  have hN : (0 : ℚ) < (c.length : ℚ) := length_pos_rat c hc.nonempty
  -- round 1: the first renormalization divides by 1 - d² > 0
  have hs : totalProb (newRanks c d (init_rank c d)) = 1 - d ^ 2 := by
    rw [totalProb_newRanks c hc d (init_rank c d),
      ← totalProb_eq_sum_keys c hc.nodupKeys (init_rank c d) (keys_init_rank c d),
      totalProb_init_rank c hc d]
    ring
  have hs0 : totalProb (newRanks c d (init_rank c d)) ≠ 0 := by
    rw [hs]
    have h1 : d ^ 2 < 1 := by nlinarith
    nlinarith
  set t1 : List (Page × ℚ) := (newRanks c d (init_rank c d)).map
    (fun e => (e.1, e.2 / totalProb (newRanks c d (init_rank c d)))) with ht1
  have hbase : iterSeq c d 1 = some t1 := by
    show (iterSeq c d 0).bind (iterRound c d) = some t1
    show iterRound c d (init_rank c d) = some t1
    unfold iterRound normalizeRanks
    rw [if_neg hs0]
  have hkt1 : t1.map Prod.fst = keys c := by
    rw [ht1, List.map_map]
    have h2 : (Prod.fst ∘ fun e : Page × ℚ =>
        (e.1, e.2 / totalProb (newRanks c d (init_rank c d)))) = Prod.fst := rfl
    rw [h2, keys_newRanks]
  have htott1 : totalProb t1 = 1 := by
    apply normalizeRanks_total (newRanks c d (init_rank c d)) t1
    unfold normalizeRanks
    rw [if_neg hs0]
  -- the geometric bound on the first-difference
  set D0 : ℚ := ∑ p in (keys c).toFinset,
    |rankOf (tailSeq c d t1 0) p - rankOf (tailSeq c d t1 1) p| with hD0
  have hD0nn : 0 ≤ D0 := Finset.sum_nonneg (fun p _ => abs_nonneg _)
  have heps : (0 : ℚ) < (1 / 1000) / (D0 + 1) := by positivity
  obtain ⟨j, hj⟩ := exists_pow_lt_of_lt_one heps hd1
  have hbound : d ^ j * D0 ≤ 1 / 1000 := by
    have h3 : d ^ j * D0 ≤ ((1 / 1000) / (D0 + 1)) * D0 :=
      mul_le_mul_of_nonneg_right (le_of_lt hj) hD0nn
    have h4 : ((1 / 1000) / (D0 + 1)) * D0 = (1 / 1000) * (D0 / (D0 + 1)) := by
      ring
    have h5 : D0 / (D0 + 1) ≤ 1 := by
      apply div_le_one_of_le₀ (by linarith) (by linarith)
    calc d ^ j * D0 ≤ ((1 / 1000) / (D0 + 1)) * D0 := h3
      _ = (1 / 1000) * (D0 / (D0 + 1)) := h4
      _ ≤ (1 / 1000) * 1 := by
          apply mul_le_mul_of_nonneg_left h5 (by norm_num)
      _ = 1 / 1000 := mul_one _
  refine ⟨j + 1, tailSeq c d t1 j, tailSeq c d t1 (j + 1),
    iterSeq_eq_tailSeq c hc d t1 hkt1 htott1 hbase j,
    iterSeq_eq_tailSeq c hc d t1 hkt1 htott1 hbase (j + 1), ?_⟩
  calc maxChange c (tailSeq c d t1 j) (tailSeq c d t1 (j + 1))
      ≤ ∑ p in (keys c).toFinset,
          |rankOf (tailSeq c d t1 j) p - rankOf (tailSeq c d t1 (j + 1)) p| :=
        maxChange_le_l1 c hc.nodupKeys _ _
    _ ≤ d ^ j * D0 := tailSeq_decay c hc d hd0 t1 j
    _ ≤ 1 / 1000 := hbound

/-- Witness for C9: the loop terminates on the one-page graph `{a: {}}`
with damping `0.85`. -/
theorem iterate_pagerank_terminates_witness :
    ∃ k t t', iterSeq [("a", [])] (17/20) k = some t
      ∧ iterSeq [("a", [])] (17/20) (k + 1) = some t'
      ∧ maxChange [("a", [])] t t' ≤ 1 / 1000 := by
  have hc : ValidCorpus [("a", [])] :=
    ⟨by decide, by decide, by decide, by decide, by decide⟩
  exact iterate_pagerank_terminates [("a", [])] hc (17/20) (by norm_num) (by norm_num)

end PageRank
